import Mathlib

/-!
Verification of the fzf-filter core loop (`src/main.rs`) against its
specification. The Rust program captures a corpus from an external command,
then repeatedly answers queries of the form `"<sequence_id> <pattern>"` read
from stdin: it extracts a field of each corpus line, scores it with an
external fuzzy scorer, keeps positively scored lines, applies an optional
top-K selection and prints the surviving lines prefixed by the sequence id,
terminated by a line holding the sequence id alone.

The embedding below models strings as Lean `String` (a `List Char` wrapper);
Rust compares `&str` byte-wise, which for valid UTF-8 coincides with
lexicographic comparison of code points, i.e. of `Char` values. The external
scorer (`fzf::get_score`) is an FFI call and is modelled as an arbitrary
function parameter `score : String → String → Int` (pattern, candidate).
-/

namespace FzfFilter

/-- Lexicographic `≤` on char lists, matching the Rust byte-wise `Ord` for
`&str` (valid UTF-8: byte order = code-point order). -/
def listLex : List Char → List Char → Bool
  | [], _ => true
  | _ :: _, [] => false
  | a :: as, b :: bs => if a < b then true else if b < a then false else listLex as bs

/-- `≤` on strings as Rust compares `&str`. -/
def strLe (a b : String) : Bool := listLex a.data b.data

/-- The order in which `run_loop` keeps matched lines: Rust sorts
`(Reverse(score), line)` pairs ascending, i.e. by descending score and,
on score ties, ascending line text. -/
def entryLE (a b : Int × String) : Prop :=
  b.1 < a.1 ∨ (a.1 = b.1 ∧ strLe a.2 b.2 = true)

instance : DecidableRel entryLE := fun a b => by
  unfold entryLE; infer_instance

/-- Rust `str::split(char)`: split on every occurrence of the delimiter;
the empty string yields one empty segment. -/
def splitChar (d : Char) : List Char → List (List Char)
  | [] => [[]]
  | c :: cs =>
    if c = d then [] :: splitChar d cs
    else
      match splitChar d cs with
      | p :: ps => (c :: p) :: ps
      | [] => [[c]]

/-- Rust `str::split_once(char)` / the head step of `splitn`: the segments
before and after the first occurrence of the delimiter, if any. -/
def splitFirst (d : Char) : List Char → Option (List Char × List Char)
  | [] => none
  | c :: cs =>
    if c = d then some ([], cs)
    else (splitFirst d cs).map (fun p => (c :: p.1, p.2))

/-- Rust `str::splitn(n, char)`: at most `n` segments, the last one keeping
any remaining delimiters; `n = 0` yields no segments. -/
def splitnChar : Nat → Char → List Char → List (List Char)
  | 0, _, _ => []
  | 1, _, s => [s]
  | n + 2, d, s =>
    match splitFirst d s with
    | none => [s]
    | some (a, b) => a :: splitnChar (n + 1) d b

/-- Joining split segments back with the delimiter; used to characterize the
`split`/`splitn` embeddings against the source semantics. -/
def joinWith (d : Char) : List (List Char) → List Char
  | [] => []
  | p :: ps =>
    match ps with
    | [] => p
    | _ :: _ => p ++ d :: joinWith d ps

/-- Rust `str::trim_end_matches('\n')`: drop every trailing newline. -/
def trimEndNewlines (s : List Char) : List Char :=
  (s.reverse.dropWhile (fun c => c = '\n')).reverse

/-- Strip one trailing carriage return, as Rust `str::lines` does. -/
def stripCR (p : List Char) : List Char :=
  if p.getLast? = some '\r' then p.dropLast else p

/-- Rust `str::lines()`: split on `'\n'`, drop a final empty segment produced
by a terminal newline, strip one trailing `'\r'` per line. -/
def rustLines (s : String) : List String :=
  let parts := splitChar '\n' s.data
  let parts := if parts.getLast? = some [] then parts.dropLast else parts
  parts.map (fun p => String.mk (stripCR p))

/-- `IndexExtractor::extract`: `s.split(delimiter).nth(index)`. -/
def IndexExtractor_extract (d : Char) (i : Nat) (s : String) : Option String :=
  ((splitChar d s.data).map String.mk)[i]?

/-- `PartitionExtractor::extract`: `s.splitn(partitions, delimiter).nth(index)`. -/
def PartitionExtractor_extract (n : Nat) (d : Char) (i : Nat) (s : String) :
    Option String :=
  ((splitnChar n d s.data).map String.mk)[i]?

/-- `ThroughExtractor::extract`: the whole line. -/
def ThroughExtractor_extract (s : String) : Option String := some s

/-- Parsing of one queued input line in `run_loop`:
`line.trim_end_matches('\n').split_once(' ')`. -/
def parseQuery (input : String) : Option (String × String) :=
  (splitFirst ' ' (trimEndNewlines input.data)).map
    (fun p => (String.mk p.1, String.mk p.2))

/-- The coalescing drain `rx.try_iter().last().unwrap_or(line)`: the last
queued line if the backlog is non-empty, otherwise the blocking-received one. -/
def drainLatest (first : String) (queued : List String) : String :=
  queued.getLast?.getD first

/-- The matched-line accumulation of `run_loop`: for each corpus line whose
field extraction succeeds, score it; keep `(score, line)` when the score is
positive.  (The Rust code stores `(Reverse(score), line)`; the reversal is
carried by `entryLE` instead.) -/
def matchedLines (ls : List String) (extract : String → Option String)
    (sp : String → Int) : List (Int × String) :=
  ls.filterMap (fun line =>
    match extract line with
    | some content =>
      let s := sp content
      if 0 < s then some (s, line) else none
    | none => none)

/-- Whether a corpus line survives extraction and positive scoring. -/
def matchesScore (extract : String → Option String) (sp : String → Int)
    (line : String) : Bool :=
  match extract line with
  | some c => decide (0 < sp c)
  | none => false

/-- The selection step of `run_loop`: with a limit `k` exceeded by the match
count, `select_nth_unstable(k)` keeps a `k`-element partition of the smallest
entries (under `entryLE`) which is then sorted; otherwise the whole collection
is sorted.  The contract of `select_nth_unstable` only fixes the partition, but any
partition satisfying it sorts to the first `k` entries of the full sort
(theorem `bounded_selection_refines_sort_truncate` below), so the observable
value is `(sort matched).take k`. -/
def scoredSelection (matched : List (Int × String)) (limit : Option Nat) :
    List (Int × String) :=
  match limit with
  | some k =>
    if k < matched.length then (List.insertionSort entryLE matched).take k
    else List.insertionSort entryLE matched
  | none => List.insertionSort entryLE matched

/-- One iteration body of `run_loop` for a drained input line, instrumented
with the number of `fzf::get_score` invocations: parse the line; on failure
emit nothing (`continue`); with an empty pattern emit up to `limit` corpus
lines unscored; otherwise emit the selected scored lines.  Every emitted
content line is `sequence ++ " " ++ line`, and a successful parse always ends
with the bare `sequence` marker. -/
def respondT (corpus : String) (limit : Option Nat)
    (extract : String → Option String) (score : String → String → Int)
    (input : String) : List String × Nat :=
  match parseQuery input with
  | none => ([], 0)
  | some (sequence, pattern) =>
    if pattern = "" then
      (((match limit with
         | some k => (rustLines corpus).take k
         | none => rustLines corpus).map (fun l => sequence ++ " " ++ l))
        ++ [sequence], 0)
    else
      let matched := matchedLines (rustLines corpus) extract (score pattern)
      ((scoredSelection matched limit).map (fun e => sequence ++ " " ++ e.2)
        ++ [sequence],
       ((rustLines corpus).filterMap extract).length)

/-- The emitted lines of one `run_loop` iteration. -/
def respond (corpus : String) (limit : Option Nat)
    (extract : String → Option String) (score : String → String → Int)
    (input : String) : List String :=
  (respondT corpus limit extract score input).1

/-! ### Order properties of the comparison used by the selector -/

theorem listLex_total : ∀ a b : List Char, listLex a b = true ∨ listLex b a = true
  | [], _ => Or.inl rfl
  | _ :: _, [] => Or.inr rfl
  | a :: as, b :: bs => by
    rcases lt_trichotomy a b with h | h | h
    · left; simp [listLex, h]
    · subst h
      rcases listLex_total as bs with ih | ih
      · left; simp [listLex, lt_irrefl, ih]
      · right; simp [listLex, lt_irrefl, ih]
    · right; simp [listLex, h]

theorem listLex_trans :
    ∀ a b c : List Char, listLex a b = true → listLex b c = true →
      listLex a c = true
  | [], _, _, _, _ => rfl
  | _ :: _, [], _, h₁, _ => by simp [listLex] at h₁
  | _ :: _, _ :: _, [], _, h₂ => by simp [listLex] at h₂
  | x :: xs, y :: ys, z :: zs, h₁, h₂ => by
    simp only [listLex] at h₁ h₂ ⊢
    rcases lt_trichotomy x y with hxy | hxy | hxy
    · rcases lt_trichotomy y z with hyz | hyz | hyz
      · simp [lt_trans hxy hyz]
      · subst hyz; simp [hxy]
      · rw [if_neg (lt_asymm hyz), if_pos hyz] at h₂; simp at h₂
    · subst hxy
      rcases lt_trichotomy x z with hxz | hxz | hxz
      · simp [hxz]
      · subst hxz
        rw [if_neg (lt_irrefl x), if_neg (lt_irrefl x)] at h₁
        rw [if_neg (lt_irrefl x), if_neg (lt_irrefl x)] at h₂
        rw [if_neg (lt_irrefl x), if_neg (lt_irrefl x)]
        exact listLex_trans xs ys zs h₁ h₂
      · rw [if_neg (lt_asymm hxz), if_pos hxz] at h₂; simp at h₂
    · rw [if_neg (lt_asymm hxy), if_pos hxy] at h₁; simp at h₁

theorem listLex_antisymm :
    ∀ a b : List Char, listLex a b = true → listLex b a = true → a = b
  | [], [], _, _ => rfl
  | [], _ :: _, _, h₂ => by simp [listLex] at h₂
  | _ :: _, [], h₁, _ => by simp [listLex] at h₁
  | x :: xs, y :: ys, h₁, h₂ => by
    simp only [listLex] at h₁ h₂
    rcases lt_trichotomy x y with h | h | h
    · rw [if_neg (lt_asymm h), if_pos h] at h₂; simp at h₂
    · subst h
      rw [if_neg (lt_irrefl x), if_neg (lt_irrefl x)] at h₁
      rw [if_neg (lt_irrefl x), if_neg (lt_irrefl x)] at h₂
      rw [listLex_antisymm xs ys h₁ h₂]
    · rw [if_neg (lt_asymm h), if_pos h] at h₁; simp at h₁

theorem strLe_antisymm (a b : String) :
    strLe a b = true → strLe b a = true → a = b := by
  intro h₁ h₂
  have hd : a.data = b.data := listLex_antisymm a.data b.data h₁ h₂
  cases a; cases b; exact congrArg String.mk hd

instance : IsTotal (Int × String) entryLE := ⟨by
  intro a b
  rcases lt_trichotomy a.1 b.1 with h | h | h
  · exact Or.inr (Or.inl h)
  · rcases listLex_total a.2.data b.2.data with hl | hl
    · exact Or.inl (Or.inr ⟨h, hl⟩)
    · exact Or.inr (Or.inr ⟨h.symm, hl⟩)
  · exact Or.inl (Or.inl h)⟩

instance : IsTrans (Int × String) entryLE := ⟨by
  intro a b c h₁ h₂
  rcases h₁ with h₁ | ⟨he₁, hs₁⟩ <;> rcases h₂ with h₂ | ⟨he₂, hs₂⟩
  · exact Or.inl (lt_trans h₂ h₁)
  · exact Or.inl (he₂ ▸ h₁)
  · exact Or.inl (he₁.symm ▸ h₂)
  · exact Or.inr ⟨he₁.trans he₂, listLex_trans _ _ _ hs₁ hs₂⟩⟩

instance : IsAntisymm (Int × String) entryLE := ⟨by
  intro a b h₁ h₂
  rcases h₁ with h₁ | ⟨he₁, hs₁⟩ <;> rcases h₂ with h₂ | ⟨he₂, hs₂⟩
  · exact absurd h₂ (lt_asymm h₁)
  · exact absurd h₁ (he₂ ▸ lt_irrefl a.1)
  · exact absurd h₂ (he₁ ▸ lt_irrefl a.1)
  · obtain ⟨a1, a2⟩ := a
    obtain ⟨b1, b2⟩ := b
    exact Prod.ext he₁ (strLe_antisymm a2 b2 hs₁ hs₂)⟩

/-! ### C1: bounded selection refines full sort + truncation -/

theorem sorted_partition_take
    (l before after : List (Int × String)) (nth : Int × String) (k : Nat)
    (hperm : (before ++ nth :: after).Perm l)
    (hlen : before.length = k)
    (hb : ∀ x ∈ before, entryLE x nth)
    (ha : ∀ x ∈ after, entryLE nth x) :
    List.insertionSort entryLE before = (List.insertionSort entryLE l).take k := by
  have hs₁ : List.Sorted entryLE (List.insertionSort entryLE before) :=
    List.sorted_insertionSort entryLE before
  have hs₂ : List.Sorted entryLE (List.insertionSort entryLE (nth :: after)) :=
    List.sorted_insertionSort entryLE (nth :: after)
  have hcross : ∀ a ∈ List.insertionSort entryLE before,
      ∀ b ∈ List.insertionSort entryLE (nth :: after), entryLE a b := by
    intro a hha b hhb
    have ha' : a ∈ before :=
      (List.perm_insertionSort entryLE before).mem_iff.1 hha
    have hb' : b ∈ nth :: after :=
      (List.perm_insertionSort entryLE (nth :: after)).mem_iff.1 hhb
    rcases List.mem_cons.1 hb' with rfl | hb''
    · exact hb a ha'
    · exact IsTrans.trans a nth b (hb a ha') (ha b hb'')
  have happ : List.Sorted entryLE
      (List.insertionSort entryLE before ++ List.insertionSort entryLE (nth :: after)) :=
    List.pairwise_append.2 ⟨hs₁, hs₂, hcross⟩
  have hperm2 :
      (List.insertionSort entryLE before
        ++ List.insertionSort entryLE (nth :: after)).Perm l :=
    ((List.perm_insertionSort entryLE before).append
      (List.perm_insertionSort entryLE (nth :: after))).trans hperm
  have heq : List.insertionSort entryLE l
      = List.insertionSort entryLE before
        ++ List.insertionSort entryLE (nth :: after) :=
    List.eq_of_perm_of_sorted
      ((List.perm_insertionSort entryLE l).trans hperm2.symm)
      (List.sorted_insertionSort entryLE l) happ
  rw [heq, ← hlen, ← List.length_insertionSort entryLE before]
  exact (List.take_left _ _).symm

/-- C1: whenever the limit `k` is below the number of matched lines, any
partition of the matched collection satisfying the contract
of `select_nth_unstable` (`before` of length `k`, everything in `before` at most the pivot,
everything past it at least the pivot, under the selector order `entryLE`),
once sorted, coincides with sorting the entire matched collection and taking
the first `k` — the bounded path of `run_loop` emits the same lines in the
same order as full-sort-then-truncate. -/
theorem bounded_selection_refines_sort_truncate
    (l before after : List (Int × String)) (nth : Int × String) (k : Nat)
    (hperm : (before ++ nth :: after).Perm l)
    (hlen : before.length = k)
    (hb : ∀ x ∈ before, entryLE x nth)
    (ha : ∀ x ∈ after, entryLE nth x) :
    k < l.length ∧
    List.insertionSort entryLE before = scoredSelection l (some k) ∧
    scoredSelection l (some k) = (List.insertionSort entryLE l).take k := by
  have hkl : k < l.length := by
    have hlength := hperm.length_eq
    simp only [List.length_append, List.length_cons] at hlength
    omega
  refine ⟨hkl, ?_, ?_⟩
  · simp only [scoredSelection, if_pos hkl]
    exact sorted_partition_take l before after nth k hperm hlen hb ha
  · simp only [scoredSelection, if_pos hkl]

/-- Witness for C1 at a concrete partition. -/
theorem bounded_selection_refines_sort_truncate_witness :
    1 < ([((2:Int),"a"), ((1:Int),"b"), ((3:Int),"c")] : List (Int × String)).length ∧
    List.insertionSort entryLE [((3:Int),"c")]
        = scoredSelection [((2:Int),"a"), ((1:Int),"b"), ((3:Int),"c")] (some 1) ∧
    scoredSelection [((2:Int),"a"), ((1:Int),"b"), ((3:Int),"c")] (some 1)
        = (List.insertionSort entryLE
            [((2:Int),"a"), ((1:Int),"b"), ((3:Int),"c")]).take 1 :=
  bounded_selection_refines_sort_truncate
    [((2:Int),"a"), ((1:Int),"b"), ((3:Int),"c")]
    [((3:Int),"c")] [((1:Int),"b")] ((2:Int),"a") 1
    (by decide) (by decide) (by decide) (by decide)

/-! ### C2: the unlimited scoring path emits exactly the matching lines -/

theorem matchedLines_map_snd (ls : List String) (extract : String → Option String)
    (sp : String → Int) :
    (matchedLines ls extract sp).map Prod.snd
      = ls.filter (matchesScore extract sp) := by
  induction ls with
  | nil => rfl
  | cons l ls ih =>
    simp only [matchedLines, List.filterMap_cons, List.filter_cons] at ih ⊢
    cases hex : extract l with
    | none => simpa [matchesScore, hex] using ih
    | some c =>
      by_cases hs : 0 < sp c
      · simpa [matchesScore, hex, hs] using ih
      · simpa [matchesScore, hex, hs] using ih

theorem entryLE_score_le {a b : Int × String} (h : entryLE a b) : b.1 ≤ a.1 := by
  rcases h with h | ⟨he, _⟩
  · exact le_of_lt h
  · exact le_of_eq he.symm

/-- C2: with no limit configured and a non-empty pattern, the response body is
the sorted matched collection; its underlying lines are a permutation of the
corpus filtered by "field extracts and scores positively" (no line lost or
duplicated), and scores are in descending order along the output. -/
theorem unlimited_query_exact_matches
    (corpus : String) (extract : String → Option String)
    (score : String → String → Int) (input sequence pattern : String)
    (hp : parseQuery input = some (sequence, pattern)) (hne : pattern ≠ "") :
    respond corpus none extract score input
      = (List.insertionSort entryLE
          (matchedLines (rustLines corpus) extract (score pattern))).map
          (fun e => sequence ++ " " ++ e.2) ++ [sequence]
    ∧ ((List.insertionSort entryLE
          (matchedLines (rustLines corpus) extract (score pattern))).map
          Prod.snd).Perm
        ((rustLines corpus).filter (matchesScore extract (score pattern)))
    ∧ List.Sorted (fun a b : Int × String => b.1 ≤ a.1)
        (List.insertionSort entryLE
          (matchedLines (rustLines corpus) extract (score pattern))) := by
  refine ⟨?_, ?_, ?_⟩
  · simp only [respond, respondT, hp, if_neg hne, scoredSelection]
  · rw [← matchedLines_map_snd]
    exact (List.perm_insertionSort entryLE _).map Prod.snd
  · exact (List.sorted_insertionSort entryLE _).imp
      (fun h => entryLE_score_le h)

/-- Witness for C2 on a three-line corpus where only `"apple"` matches. -/
theorem unlimited_query_exact_matches_witness :
    respond "apple\nbanana\ngrape" none ThroughExtractor_extract
        (fun p c => if p = "ap" then (if c = "apple" then 5 else 0) else 0) "7 ap"
      = (List.insertionSort entryLE
          (matchedLines (rustLines "apple\nbanana\ngrape") ThroughExtractor_extract
            ((fun p c => if p = "ap" then (if c = "apple" then 5 else 0) else 0) "ap"))).map
          (fun e => "7" ++ " " ++ e.2) ++ ["7"]
    ∧ ((List.insertionSort entryLE
          (matchedLines (rustLines "apple\nbanana\ngrape") ThroughExtractor_extract
            ((fun p c => if p = "ap" then (if c = "apple" then 5 else 0) else 0) "ap"))).map
          Prod.snd).Perm
        ((rustLines "apple\nbanana\ngrape").filter
          (matchesScore ThroughExtractor_extract
            ((fun p c => if p = "ap" then (if c = "apple" then 5 else 0) else 0) "ap")))
    ∧ List.Sorted (fun a b : Int × String => b.1 ≤ a.1)
        (List.insertionSort entryLE
          (matchedLines (rustLines "apple\nbanana\ngrape") ThroughExtractor_extract
            ((fun p c => if p = "ap" then (if c = "apple" then 5 else 0) else 0) "ap"))) :=
  unlimited_query_exact_matches "apple\nbanana\ngrape" ThroughExtractor_extract
    (fun p c => if p = "ap" then (if c = "apple" then 5 else 0) else 0) "7 ap"
    "7" "ap" (by decide) (by decide)

/-! ### C3: tie-break on equal scores -/

/-- C3 counterexample: two lines with equal score are emitted in ascending
text order (`"a"` before `"b"`), not descending as claimed. -/
theorem tiebreak_descending_counterexample :
    matchedLines (rustLines "a\nb") ThroughExtractor_extract (fun _ => (1 : Int))
      = [((1 : Int), "a"), ((1 : Int), "b")]
    ∧ respond "a\nb" none ThroughExtractor_extract (fun _ _ => 1) "7 x"
      = ["7 a", "7 b", "7"]
    ∧ respond "a\nb" none ThroughExtractor_extract (fun _ _ => 1) "7 x"
      ≠ ["7 b", "7 a", "7"] :=
  ⟨by decide, by decide, by decide⟩

/-- C3 amended: on equal scores the selector orders lines by ascending
(not descending) lexicographic line text; the order is total on equal-score
pairs and the sorted result is reproducible — independent of the iteration
order of the matched collection. -/
theorem tiebreak_ascending_deterministic
    (sc : Int) (x y : String) (l l' : List (Int × String))
    (hperm : l.Perm l') :
    (entryLE (sc, x) (sc, y) ↔ strLe x y = true)
    ∧ (entryLE (sc, x) (sc, y) ∨ entryLE (sc, y) (sc, x))
    ∧ List.insertionSort entryLE l = List.insertionSort entryLE l'
    ∧ List.Sorted entryLE (List.insertionSort entryLE l) := by
  refine ⟨by simp [entryLE, lt_irrefl], ?_, ?_, List.sorted_insertionSort entryLE l⟩
  · rcases listLex_total x.data y.data with h | h
    · exact Or.inl (Or.inr ⟨rfl, h⟩)
    · exact Or.inr (Or.inr ⟨rfl, h⟩)
  · exact List.eq_of_perm_of_sorted
      ((List.perm_insertionSort entryLE l).trans
        (hperm.trans (List.perm_insertionSort entryLE l').symm))
      (List.sorted_insertionSort entryLE l)
      (List.sorted_insertionSort entryLE l')

/-- Witness for the amended C3 on two equal-score lines fed in both orders. -/
theorem tiebreak_ascending_deterministic_witness :
    (entryLE ((1 : Int), "a") ((1 : Int), "b") ↔ strLe "a" "b" = true)
    ∧ (entryLE ((1 : Int), "a") ((1 : Int), "b")
        ∨ entryLE ((1 : Int), "b") ((1 : Int), "a"))
    ∧ List.insertionSort entryLE [((1 : Int), "b"), ((1 : Int), "a")]
        = List.insertionSort entryLE [((1 : Int), "a"), ((1 : Int), "b")]
    ∧ List.Sorted entryLE
        (List.insertionSort entryLE [((1 : Int), "b"), ((1 : Int), "a")]) :=
  tiebreak_ascending_deterministic 1 "a" "b"
    [((1 : Int), "b"), ((1 : Int), "a")] [((1 : Int), "a"), ((1 : Int), "b")]
    (by decide)

/-! ### C4: coalescing keeps only the most recently queued line -/

/-- C4: when the backlog drained in one consumer iteration is non-empty, the
iteration processes exactly its most recently queued line: the drain returns
that line, and the entire output of the iteration is the response to it alone —
independent of the blocking-received line `first` and of every superseded
line in `rest`, which therefore produce no response lines and no
end-of-response marker. -/
theorem coalescing_latest_only
    (corpus : String) (limit : Option Nat) (extract : String → Option String)
    (score : String → String → Int) (first q : String) (rest : List String) :
    drainLatest first (rest ++ [q]) = q
    ∧ respond corpus limit extract score (drainLatest first (rest ++ [q]))
        = respond corpus limit extract score q := by
  have h : drainLatest first (rest ++ [q]) = q := by
    simp [drainLatest]
  exact ⟨h, by rw [h]⟩

/-! ### C5: all-whitespace patterns do NOT take the passthrough branch -/

/-- C5 counterexample: the input line `"7  "` parses to the all-whitespace
pattern `" "`, which is non-empty, so the iteration takes the scoring branch:
the scorer is invoked once (not zero times) on the one-line corpus `"a"`, and
the output is not the unranked passthrough output. -/
theorem whitespace_passthrough_counterexample :
    parseQuery "7  " = some ("7", " ")
    ∧ (" " : String) ≠ ""
    ∧ (respondT "a" none ThroughExtractor_extract (fun _ _ => 0) "7  ").2 = 1
    ∧ respond "a" none ThroughExtractor_extract (fun _ _ => 0) "7  " = ["7"]
    ∧ respond "a" none ThroughExtractor_extract (fun _ _ => 0) "7  "
        ≠ (rustLines "a").map (fun l => "7" ++ " " ++ l) ++ ["7"] :=
  ⟨by decide, by decide, by decide, by decide, by decide⟩

/-- C5 amended: only the exactly-empty pattern (after stripping trailing
newlines) takes the unranked-passthrough branch with zero scorer invocations;
any non-empty pattern — all-whitespace included — takes the scoring branch,
invoking the scorer once per corpus line whose field extraction succeeds. -/
theorem passthrough_only_for_exactly_empty_pattern
    (corpus : String) (limit : Option Nat) (extract : String → Option String)
    (score : String → String → Int) (input sequence pattern : String)
    (hp : parseQuery input = some (sequence, pattern)) :
    (respondT corpus limit extract score input).2
      = if pattern = "" then 0
        else ((rustLines corpus).filterMap extract).length := by
  by_cases hne : pattern = ""
  · subst hne; simp [respondT, hp]
  · simp [respondT, hp, hne]

/-- Witness for the amended C5 at the all-whitespace pattern `" "`. -/
theorem passthrough_only_for_exactly_empty_pattern_witness :
    (respondT "a" none ThroughExtractor_extract (fun _ _ => 0) "7  ").2
      = if (" " : String) = "" then 0
        else ((rustLines "a").filterMap ThroughExtractor_extract).length :=
  passthrough_only_for_exactly_empty_pattern "a" none ThroughExtractor_extract
    (fun _ _ => 0) "7  " "7" " " (by decide)

/-! ### C6: empty pattern with a limit -/

/-- C6: a query with an empty pattern and limit `k` responds with the first
`k` corpus lines (all of them when the corpus is shorter), each prefixed by
the sequence id, in original corpus order, followed by the end marker, with
zero invocations of the scoring function. -/
theorem empty_pattern_limited_passthrough
    (corpus : String) (k : Nat) (extract : String → Option String)
    (score : String → String → Int) (input sequence : String)
    (hp : parseQuery input = some (sequence, "")) :
    respondT corpus (some k) extract score input
      = (((rustLines corpus).take k).map (fun l => sequence ++ " " ++ l)
          ++ [sequence], 0) := by
  simp [respondT, hp]

/-- Witness for C6: three-line corpus, limit 2. -/
theorem empty_pattern_limited_passthrough_witness :
    respondT "a\nb\nc" (some 2) ThroughExtractor_extract (fun _ _ => 9) "5 \n"
      = (((rustLines "a\nb\nc").take 2).map (fun l => "5" ++ " " ++ l)
          ++ ["5"], 0) :=
  empty_pattern_limited_passthrough "a\nb\nc" 2 ThroughExtractor_extract
    (fun _ _ => 9) "5 \n" "5" (by decide)

/-! ### C7: every parsed query gets a response that ends with exactly one marker line -/

theorem string_data_append (a b : String) : (a ++ b).data = a.data ++ b.data :=
  rfl

theorem seq_line_ne_sequence (sequence l : String) :
    sequence ++ " " ++ l ≠ sequence := by
  intro h
  have hd : (sequence ++ " " ++ l).data = sequence.data := congrArg String.data h
  rw [string_data_append, string_data_append] at hd
  have hlen := congrArg List.length hd
  have hsp : (" " : String).data = [' '] := rfl
  simp only [List.length_append, hsp, List.length_cons, List.length_nil] at hlen
  omega

theorem body_marker_shape (body : List String) (sequence : String)
    (hbody : ∀ o ∈ body, o ≠ sequence) :
    (body ++ [sequence]).getLast? = some sequence
    ∧ (body ++ [sequence]).count sequence = 1 := by
  constructor
  · simp
  · rw [List.count_append]
    have h0 : body.count sequence = 0 :=
      List.count_eq_zero.2 (fun h => hbody sequence h rfl)
    simp [h0]

/-- C7: for every input line that parses into a sequence id and pattern, the
last line of the response is the bare sequence id, and it is the only line of the
response equal to it — in every branch, including zero matches and an empty
corpus. -/
theorem response_end_marker
    (corpus : String) (limit : Option Nat) (extract : String → Option String)
    (score : String → String → Int) (input sequence pattern : String)
    (hp : parseQuery input = some (sequence, pattern)) :
    (respond corpus limit extract score input).getLast? = some sequence
    ∧ (respond corpus limit extract score input).count sequence = 1 := by
  have hshape : ∃ body : List String, (∀ o ∈ body, o ≠ sequence) ∧
      respond corpus limit extract score input = body ++ [sequence] := by
    by_cases hpat : pattern = ""
    · subst hpat
      refine ⟨(match limit with
          | some k => (rustLines corpus).take k
          | none => rustLines corpus).map (fun l => sequence ++ " " ++ l),
        ?_, by simp [respond, respondT, hp]⟩
      intro o ho
      obtain ⟨l, _, rfl⟩ := List.mem_map.1 ho
      exact seq_line_ne_sequence sequence l
    · refine ⟨(scoredSelection
            (matchedLines (rustLines corpus) extract (score pattern)) limit).map
          (fun e => sequence ++ " " ++ e.2),
        ?_, by simp [respond, respondT, hp, hpat]⟩
      intro o ho
      obtain ⟨e, _, rfl⟩ := List.mem_map.1 ho
      exact seq_line_ne_sequence sequence e.2
  obtain ⟨body, hbody, heq⟩ := hshape
  rw [heq]
  exact body_marker_shape body sequence hbody

/-- Witness for C7 on an empty corpus: the response is the bare marker. -/
theorem response_end_marker_witness :
    (respond "" none ThroughExtractor_extract (fun _ _ => 1) "3 q").getLast?
      = some "3"
    ∧ (respond "" none ThroughExtractor_extract (fun _ _ => 1) "3 q").count "3"
      = 1 :=
  response_end_marker "" none ThroughExtractor_extract (fun _ _ => 1) "3 q"
    "3" "q" (by decide)

/-! ### C8: field extraction semantics -/

theorem splitChar_ne_nil (d : Char) : ∀ s : List Char, splitChar d s ≠ []
  | [] => by simp [splitChar]
  | c :: cs => by
    simp only [splitChar]
    by_cases h : c = d
    · simp [h]
    · rw [if_neg h]
      cases hs : splitChar d cs with
      | nil => simp
      | cons p ps => simp

theorem joinWith_cons (d : Char) (p : List Char) (ps : List (List Char))
    (h : ps ≠ []) : joinWith d (p :: ps) = p ++ d :: joinWith d ps := by
  cases ps with
  | nil => exact absurd rfl h
  | cons q qs => rfl

theorem joinWith_splitChar (d : Char) :
    ∀ s : List Char, joinWith d (splitChar d s) = s
  | [] => rfl
  | c :: cs => by
    simp only [splitChar]
    by_cases h : c = d
    · rw [if_pos h, joinWith_cons d [] _ (splitChar_ne_nil d cs),
        joinWith_splitChar d cs, h]
      rfl
    · rw [if_neg h]
      cases hs : splitChar d cs with
      | nil => exact absurd hs (splitChar_ne_nil d cs)
      | cons p ps =>
        have hj := joinWith_splitChar d cs
        rw [hs] at hj
        cases ps with
        | nil =>
          have hp : p = cs := hj
          show c :: p = c :: cs
          rw [hp]
        | cons q qs =>
          rw [joinWith_cons d p (q :: qs) (by simp)] at hj
          show (c :: p) ++ d :: joinWith d (q :: qs) = c :: cs
          rw [List.cons_append, hj]

theorem splitChar_no_delim (d : Char) :
    ∀ s : List Char, ∀ p ∈ splitChar d s, d ∉ p
  | [] => by simp [splitChar]
  | c :: cs => by
    intro p hp
    simp only [splitChar] at hp
    by_cases h : c = d
    · rw [if_pos h] at hp
      rcases List.mem_cons.1 hp with rfl | hp'
      · simp
      · exact splitChar_no_delim d cs p hp'
    · rw [if_neg h] at hp
      cases hs : splitChar d cs with
      | nil => exact absurd hs (splitChar_ne_nil d cs)
      | cons q qs =>
        rw [hs] at hp
        rcases List.mem_cons.1 hp with rfl | hp'
        · intro hd
          rcases List.mem_cons.1 hd with rfl | hd'
          · exact h rfl
          · exact splitChar_no_delim d cs q
              (hs.symm ▸ List.mem_cons_self q qs) hd'
        · exact splitChar_no_delim d cs p
            (hs.symm ▸ List.mem_cons.2 (Or.inr hp'))

theorem splitFirst_eq_some (d : Char) :
    ∀ (s a b : List Char), splitFirst d s = some (a, b) →
      a ++ d :: b = s ∧ d ∉ a
  | [], a, b => by simp [splitFirst]
  | c :: cs, a, b => by
    simp only [splitFirst]
    by_cases h : c = d
    · rw [if_pos h]
      intro hsome
      simp only [Option.some.injEq, Prod.mk.injEq] at hsome
      obtain ⟨ha, hb⟩ := hsome
      subst ha; subst hb
      simp [h]
    · rw [if_neg h]
      cases hs : splitFirst d cs with
      | none => simp
      | some p =>
        simp only [Option.map_some', Option.some.injEq, Prod.mk.injEq]
        intro hsome
        obtain ⟨ha, hb⟩ := hsome
        obtain ⟨hp1, hp2⟩ := splitFirst_eq_some d cs p.1 p.2 (by rw [hs])
        subst ha; subst hb
        constructor
        · rw [List.cons_append, hp1]
        · intro hd
          rcases List.mem_cons.1 hd with rfl | hd'
          · exact h rfl
          · exact hp2 hd'

theorem splitnChar_ne_nil (d : Char) :
    ∀ (n : Nat) (s : List Char), 1 ≤ n → splitnChar n d s ≠ []
  | 0, _, h => absurd h (by simp)
  | 1, s, _ => by simp [splitnChar]
  | n + 2, s, _ => by
    simp only [splitnChar]
    cases hs : splitFirst d s with
    | none => simp
    | some p => simp

theorem splitnChar_length (d : Char) :
    ∀ (n : Nat) (s : List Char), (splitnChar n d s).length ≤ n
  | 0, _ => le_refl 0
  | 1, s => by simp [splitnChar]
  | n + 2, s => by
    simp only [splitnChar]
    cases hs : splitFirst d s with
    | none => simp
    | some p =>
      simp only [List.length_cons]
      have ih := splitnChar_length d (n + 1) p.2
      omega

theorem joinWith_splitnChar (d : Char) :
    ∀ (n : Nat) (s : List Char), 1 ≤ n →
      joinWith d (splitnChar n d s) = s
  | 0, _, h => absurd h (by simp)
  | 1, s, _ => rfl
  | n + 2, s, _ => by
    simp only [splitnChar]
    cases hs : splitFirst d s with
    | none => rfl
    | some p =>
      obtain ⟨hp1, _⟩ := splitFirst_eq_some d s p.1 p.2 (by rw [hs])
      rw [joinWith_cons d p.1 _ (splitnChar_ne_nil d (n + 1) p.2 (by omega)),
        joinWith_splitnChar d (n + 1) p.2 (by omega), hp1]

theorem splitnChar_dropLast_no_delim (d : Char) :
    ∀ (n : Nat) (s : List Char), ∀ p ∈ (splitnChar n d s).dropLast, d ∉ p
  | 0, _ => by simp [splitnChar]
  | 1, s => by simp [splitnChar]
  | n + 2, s => by
    intro p hp
    simp only [splitnChar] at hp
    cases hs : splitFirst d s with
    | none => rw [hs] at hp; simp at hp
    | some q =>
      obtain ⟨a, b⟩ := q
      rw [hs] at hp
      obtain ⟨_, hq2⟩ := splitFirst_eq_some d s a b (by rw [hs])
      have hp2 : p ∈ (a :: splitnChar (n + 1) d b).dropLast := hp
      cases hL : splitnChar (n + 1) d b with
      | nil => exact absurd hL (splitnChar_ne_nil d (n + 1) b (by omega))
      | cons r rs =>
        rw [hL, List.dropLast_cons₂] at hp2
        rcases List.mem_cons.1 hp2 with rfl | hp'
        · exact hq2
        · exact splitnChar_dropLast_no_delim d (n + 1) b p
            (by rw [hL]; exact hp')

/-- C8: `IndexExtractor` returns the `i`-th segment of the line split on the
delimiter (the segments carry no delimiter and joined with it reconstruct the
line), if present, else `none`; `PartitionExtractor` with `max_partitions = n`
splits into at most `n` segments whose non-last segments carry no delimiter
(the last retains any remaining delimiters: joining reconstructs the line)
and returns the `i`-th, if present, else `none`.  Absence of the field is an
ordinary `none`, which the filter loop treats as "excluded from scoring"
(lemma `matchedLines_map_snd`), never as an error. -/
theorem extractor_field_semantics
    (d : Char) (i : Nat) (s : String) (n : Nat) (hn : 1 ≤ n) :
    IndexExtractor_extract d i s = ((splitChar d s.data).map String.mk)[i]?
    ∧ joinWith d (splitChar d s.data) = s.data
    ∧ (∀ p ∈ splitChar d s.data, d ∉ p)
    ∧ PartitionExtractor_extract n d i s
        = ((splitnChar n d s.data).map String.mk)[i]?
    ∧ (splitnChar n d s.data).length ≤ n
    ∧ joinWith d (splitnChar n d s.data) = s.data
    ∧ (∀ p ∈ (splitnChar n d s.data).dropLast, d ∉ p) :=
  ⟨rfl, joinWith_splitChar d s.data, splitChar_no_delim d s.data, rfl,
    splitnChar_length d n s.data, joinWith_splitnChar d n s.data hn,
    splitnChar_dropLast_no_delim d n s.data⟩

/-- Witness for C8 on the example line from the spec `"a\tb\tc"`. -/
theorem extractor_field_semantics_witness :
    IndexExtractor_extract '\t' 1 "a\tb\tc"
        = ((splitChar '\t' ("a\tb\tc" : String).data).map String.mk)[1]?
    ∧ joinWith '\t' (splitChar '\t' ("a\tb\tc" : String).data)
        = ("a\tb\tc" : String).data
    ∧ (∀ p ∈ splitChar '\t' ("a\tb\tc" : String).data, '\t' ∉ p)
    ∧ PartitionExtractor_extract 2 '\t' 1 "a\tb\tc"
        = ((splitnChar 2 '\t' ("a\tb\tc" : String).data).map String.mk)[1]?
    ∧ (splitnChar 2 '\t' ("a\tb\tc" : String).data).length ≤ 2
    ∧ joinWith '\t' (splitnChar 2 '\t' ("a\tb\tc" : String).data)
        = ("a\tb\tc" : String).data
    ∧ (∀ p ∈ (splitnChar 2 '\t' ("a\tb\tc" : String).data).dropLast, '\t' ∉ p) :=
  extractor_field_semantics '\t' 1 "a\tb\tc" 2 (by decide)

/-! ### C9: the emitted text is the full corpus line, not the extracted field -/

theorem mem_matchedLines {ls : List String} {extract : String → Option String}
    {sp : String → Int} {e : Int × String}
    (he : e ∈ matchedLines ls extract sp) :
    e.2 ∈ ls ∧ ∃ c, extract e.2 = some c ∧ sp c = e.1 ∧ 0 < e.1 := by
  obtain ⟨l, hl, hf⟩ := List.mem_filterMap.1 he
  cases hex : extract l with
  | none =>
    rw [hex] at hf
    exact absurd hf (by simp)
  | some c =>
    rw [hex] at hf
    have hf2 : (if 0 < sp c then some (sp c, l) else none) = some e := hf
    by_cases hs : 0 < sp c
    · rw [if_pos hs] at hf2
      have he2 : (sp c, l) = e := Option.some.inj hf2
      subst he2
      exact ⟨hl, c, hex, rfl, hs⟩
    · rw [if_neg hs] at hf2
      exact absurd hf2 (by simp)

theorem scoredSelection_subset (m : List (Int × String)) (limit : Option Nat) :
    ∀ e ∈ scoredSelection m limit, e ∈ m := by
  intro e he
  have hsort : ∀ x ∈ List.insertionSort entryLE m, x ∈ m :=
    fun x hx => (List.perm_insertionSort entryLE m).mem_iff.1 hx
  cases limit with
  | none => exact hsort e he
  | some k =>
    simp only [scoredSelection] at he
    by_cases hk : k < m.length
    · rw [if_pos hk] at he
      exact hsort e (List.take_subset _ _ he)
    · rw [if_neg hk] at he
      exact hsort e he

/-- C9: every line the scoring branch emits is either the bare end marker or
the sequence id followed by an entire original corpus line whose extracted
field scored positively — the scorer sees only the extracted substring, but
the full line is what gets stored and printed. -/
theorem emitted_text_is_full_line
    (corpus : String) (limit : Option Nat) (extract : String → Option String)
    (score : String → String → Int) (input sequence pattern o : String)
    (hp : parseQuery input = some (sequence, pattern)) (hne : pattern ≠ "")
    (ho : o ∈ respond corpus limit extract score input) :
    o = sequence
    ∨ ∃ l ∈ rustLines corpus, ∃ c, extract l = some c ∧ 0 < score pattern c
        ∧ o = sequence ++ " " ++ l := by
  have hresp : respond corpus limit extract score input
      = (scoredSelection
          (matchedLines (rustLines corpus) extract (score pattern)) limit).map
          (fun e => sequence ++ " " ++ e.2) ++ [sequence] := by
    simp [respond, respondT, hp, hne]
  rw [hresp] at ho
  rcases List.mem_append.1 ho with hbody | hmark
  · obtain ⟨e, hesel, rfl⟩ := List.mem_map.1 hbody
    obtain ⟨hmem, c, hex, hsc, hpos⟩ :=
      mem_matchedLines (scoredSelection_subset _ _ e hesel)
    exact Or.inr ⟨e.2, hmem, c, hex, hsc.symm ▸ hpos, rfl⟩
  · exact Or.inl (List.mem_singleton.1 hmark)

/-- Witness for C9: with a tab-field extractor only `"a"` is scored, yet the
emitted line is the full `"x\ta"`. -/
theorem emitted_text_is_full_line_witness :
    ("9 x\ta" : String) = "9"
    ∨ ∃ l ∈ rustLines "x\ta\ny\tb", ∃ c,
        IndexExtractor_extract '\t' 1 l = some c
        ∧ 0 < (fun _ c => if c = "a" then (1 : Int) else 0) "q" c
        ∧ ("9 x\ta" : String) = "9" ++ " " ++ l :=
  emitted_text_is_full_line "x\ta\ny\tb" none (IndexExtractor_extract '\t' 1)
    (fun _ c => if c = "a" then (1 : Int) else 0) "9 q" "9" "q" "9 x\ta"
    (by decide) (by decide) (by decide)

/-! ### C10: a malformed latest line skips the whole drained iteration -/

theorem splitFirst_eq_none_of_not_mem (d : Char) :
    ∀ s : List Char, d ∉ s → splitFirst d s = none
  | [] => fun _ => rfl
  | c :: cs => fun h => by
    have hc : ¬ c = d := fun hcd => h (List.mem_cons.2 (Or.inl hcd.symm))
    have hcs : d ∉ cs := fun hd => h (List.mem_cons.2 (Or.inr hd))
    simp [splitFirst, hc, splitFirst_eq_none_of_not_mem d cs hcs]

/-- C10: when the most recently queued line of a drain contains no space (after
stripping trailing newlines), it fails to parse and the whole iteration is
skipped: no response line and no end marker is emitted — also none for the
well-formed earlier lines (`first`, `rest`) discarded by the coalescing drain. -/
theorem malformed_latest_skips_iteration
    (corpus : String) (limit : Option Nat) (extract : String → Option String)
    (score : String → String → Int) (first bad : String) (rest : List String)
    (hbad : ' ' ∉ trimEndNewlines bad.data) :
    parseQuery (drainLatest first (rest ++ [bad])) = none
    ∧ respond corpus limit extract score (drainLatest first (rest ++ [bad]))
        = [] := by
  have hdrain : drainLatest first (rest ++ [bad]) = bad := by
    simp [drainLatest]
  have hparse : parseQuery bad = none := by
    simp [parseQuery, splitFirst_eq_none_of_not_mem ' ' _ hbad]
  rw [hdrain]
  exact ⟨hparse, by simp [respond, respondT, hparse]⟩

/-- Witness for C10: the malformed `"nospace\n"` supersedes a well-formed
query, and the iteration emits nothing. -/
theorem malformed_latest_skips_iteration_witness :
    parseQuery (drainLatest "0 fine" (["1 ok"] ++ ["nospace\n"])) = none
    ∧ respond "a\nb" none ThroughExtractor_extract (fun _ _ => 1)
        (drainLatest "0 fine" (["1 ok"] ++ ["nospace\n"])) = [] :=
  malformed_latest_skips_iteration "a\nb" none ThroughExtractor_extract
    (fun _ _ => 1) "0 fine" "nospace\n" ["1 ok"] (by decide)

end FzfFilter
